import Mathlib

/-!
Formal model of the primal-dual schema for weighted set cover, as
implemented in `src/main.cpp`.  Elements are the integers
`0, 1, ..., nr_elements - 1`; sets are indexed by their position in the
order they were added.  The C++ code computes with `double`; the model
computes with exact rationals `ℚ`, keeping every tolerance comparison of
the source (`EPSILON`) in place.  The Eigen matrix `A` and the vector
`sum` are modelled as zero-initialized, which is what the source's own
comments assume (the Eigen constructors used in the source do not
actually initialize their coefficients; see the development notes on the
coverage matrix below).
-/

namespace SetCover

attribute [local semireducible] Rat.add Rat.sub Rat.mul Rat.inv

/-- Tolerance constant of the source: `#define EPSILON 0.0001`. -/
def EPSILON : ℚ := 1 / 10000

/-- The instance struct of the source: the fixed element count, the list
of sets (each a list of element indices, C++ `int`, hence `ℤ`) and the
parallel list of costs. -/
structure Instance where
  nr_elements : ℕ
  sets : List (List ℤ)
  costs : List ℚ
deriving DecidableEq

/-- The constructor `Instance(size_t nr_elements)`: stores the element
count, with empty `sets` and `costs`. -/
def Instance.construct (n : ℕ) : Instance := ⟨n, [], []⟩

/-- The member `add_set(double cost, std::vector<int> covered_elements)`:
appends the set and its cost to the parallel sequences. -/
def Instance.add_set (inst : Instance) (cost : ℚ) (covered_elements : List ℤ) : Instance :=
  { inst with sets := inst.sets ++ [covered_elements], costs := inst.costs ++ [cost] }

/-- The member `verify()`: asserts `costs.size() == sets.size()` and, for
every element `e` of every set, `e >= 0` and `e < nr_elements`.  The model
returns `true` exactly when no assert fires. -/
def Instance.verify (inst : Instance) : Bool :=
  (inst.costs.length == inst.sets.length) &&
    inst.sets.all fun s => s.all fun e =>
      decide (0 ≤ e) && decide (e < (inst.nr_elements : ℤ))

/-- Set `s` covers element `e`: entry `(e, s)` of the coverage matrix is
written to `1` by the construction loop of `solve`.  An index `s` outside
the set list covers nothing. -/
def cov (inst : Instance) (e s : ℕ) : Prop := (e : ℤ) ∈ inst.sets.getD s []

instance (inst : Instance) (e s : ℕ) : Decidable (cov inst e s) := by
  unfold cov; infer_instance

/-- Entry `A(e, s)` of the coverage matrix built at the top of `solve`:
`1` if set `s` contains element `e`, else `0` (zero-initialized reading;
the source's Eigen constructor leaves unwritten entries indeterminate,
and the comment `(e,s)=1 iff e is covered by s` documents the intent). -/
def coverage (inst : Instance) (e s : ℕ) : ℚ := if cov inst e s then 1 else 0

/-- The cost vector `c` copied from `instance.costs`. -/
def costVec (inst : Instance) (i : ℕ) : ℚ := inst.costs.getD i 0

/-- The vector `sum` of accumulated dual contributions (`slackUsed`),
before the first element is processed (zero-initialized reading of
`Eigen::VectorXd sum{A.cols()}`). -/
def initialSlack : ℕ → ℚ := fun _ => 0

/-- One iteration of the inner loop of `solve` computing
`max_possible_incr`: skip set `i` when `covered_by_sets[i] < EPSILON`,
otherwise take the minimum with `gap[i] / covered_by_sets[i]`; the
accumulator `none` stands for the starting value `+infinity`. -/
def incrStep (inst : Instance) (sum : ℕ → ℚ) (e : ℕ) (acc : Option ℚ) (i : ℕ) : Option ℚ :=
  if coverage inst e i < EPSILON then acc
  else
    match acc with
    | none => some ((costVec inst i - sum i) / coverage inst e i)
    | some v => some (min v ((costVec inst i - sum i) / coverage inst e i))

/-- The value `max_possible_incr` computed for element `e` from the
current slack vector `sum`: the inner loop runs over all set indices
`0, ..., nr_sets - 1`.  `none` models the value remaining `+infinity`. -/
def maxIncr (inst : Instance) (sum : ℕ → ℚ) (e : ℕ) : Option ℚ :=
  (List.range inst.sets.length).foldl (incrStep inst sum e) none

/-- The dual-growth loop of `solve` over the remaining elements: for each
element, compute `max_possible_incr`; if it stayed infinite, return the
infeasibility signal (`none`); otherwise add `incr * covered_by_sets` to
`sum` and continue. -/
def growDuals (inst : Instance) : List ℕ → (ℕ → ℚ) → Option (ℕ → ℚ)
  | [], sum => some sum
  | e :: es, sum =>
    match maxIncr inst sum e with
    | none => none
    | some incr => growDuals inst es (fun i => sum i + incr * coverage inst e i)

/-- The observable outcome of `solve`: the `verify()` assert aborting the
program, the infeasible path (which prints the fixed string
`Infeasible!` to stderr and returns the empty vector), or the normal
return of the selected set indices. -/
inductive SolveResult where
  | assertFail
  | infeasible
  | cover (selected : List ℕ)
deriving DecidableEq

/-- The vector `solve` hands back to its caller: nothing when the assert
aborts, the empty vector on the infeasible path, and the selected
indices otherwise. -/
def returnedValue : SolveResult → Option (List ℕ)
  | .assertFail => none
  | .infeasible => some []
  | .cover l => some l

/-- The function `solve`: verify the instance, run the dual-growth loop
over elements `0, ..., nr_elements - 1` in increasing order, then return
every set index `s` with `|c[s] - sum[s]| < EPSILON`, in increasing
order of `s`. -/
def solve (inst : Instance) : SolveResult :=
  if inst.verify = false then .assertFail
  else
    match growDuals inst (List.range inst.nr_elements) initialSlack with
    | none => .infeasible
    | some sum =>
      .cover ((List.range inst.sets.length).filter
        fun s => |costVec inst s - sum s| < EPSILON)

/-- Every element of the universe is contained in at least one set. -/
def Feasible (inst : Instance) : Prop :=
  ∀ e < inst.nr_elements, ∃ s < inst.sets.length, cov inst e s

instance (inst : Instance) : Decidable (Feasible inst) :=
  decidable_of_iff
    (((List.range inst.nr_elements).all fun e =>
        (List.range inst.sets.length).any fun s => decide (cov inst e s)) = true)
    (by simp [Feasible, List.all_eq_true, List.any_eq_true, List.mem_range])

/-- A family `K` of set indices covering the whole universe. -/
def IsCover (inst : Instance) (K : Finset ℕ) : Prop :=
  ∀ e < inst.nr_elements, ∃ s ∈ K, cov inst e s

instance (inst : Instance) (K : Finset ℕ) : Decidable (IsCover inst K) :=
  decidable_of_iff
    (((List.range inst.nr_elements).all fun e =>
        decide (∃ s ∈ K, cov inst e s)) = true)
    (by simp [IsCover, List.all_eq_true, List.mem_range])

/-- Total cost of a family of set indices. -/
def coverCost (inst : Instance) (K : Finset ℕ) : ℚ := ∑ s ∈ K, costVec inst s

/-- Total cost of a returned list of set indices. -/
def totalCost (inst : Instance) (l : List ℕ) : ℚ := (l.map (costVec inst)).sum

/-- The number of sets containing element `e` (its frequency). -/
def freqOf (inst : Instance) (e : ℕ) : ℕ :=
  ((Finset.range inst.sets.length).filter fun s => cov inst e s).card

/-- The maximum frequency `f` over all elements of the universe. -/
def maxFreq (inst : Instance) : ℕ :=
  (Finset.range inst.nr_elements).sup (freqOf inst)

/-- The instance built by `main()`: five elements, sets S0 (cost 50,
elements 0 and 1), S1 (cost 2, elements 1, 2, 3), S2 (cost 3, elements
3 and 4), S3 (cost 2, elements 4 and 0). -/
def inst5 : Instance :=
  ((((Instance.construct 5).add_set 50 [0, 1]).add_set 2 [1, 2, 3]).add_set
    3 [3, 4]).add_set 2 [4, 0]

/-! Basic facts about the tolerance, the coverage matrix and the cost
vector. -/

lemma EPSILON_pos : 0 < EPSILON := by norm_num [EPSILON]

lemma EPSILON_lt_one : EPSILON < 1 := by norm_num [EPSILON]

lemma coverage_nonneg (inst : Instance) (e i : ℕ) : 0 ≤ coverage inst e i := by
  unfold coverage; split <;> norm_num

lemma coverage_of_cov (inst : Instance) {e i : ℕ} (h : cov inst e i) :
    coverage inst e i = 1 := by simp [coverage, h]

lemma coverage_of_not_cov (inst : Instance) {e i : ℕ} (h : ¬ cov inst e i) :
    coverage inst e i = 0 := by simp [coverage, h]

lemma coverage_lt_eps_iff (inst : Instance) (e i : ℕ) :
    coverage inst e i < EPSILON ↔ ¬ cov inst e i := by
  unfold coverage
  by_cases h : cov inst e i <;> simp [h]
  · exact le_of_lt EPSILON_lt_one
  · exact EPSILON_pos

lemma cov_lt_length (inst : Instance) {e i : ℕ} (h : cov inst e i) :
    i < inst.sets.length := by
  by_contra hge
  rw [cov, List.getD_eq_default _ _ (le_of_not_lt hge)] at h
  exact absurd h (List.not_mem_nil _)

lemma costVec_nonneg (inst : Instance) (hc : ∀ x ∈ inst.costs, 0 ≤ x) (i : ℕ) :
    0 ≤ costVec inst i := by
  unfold costVec
  rcases lt_or_ge i inst.costs.length with h | h
  · rw [List.getD_eq_getElem _ 0 h]
    exact hc _ (List.getElem_mem h)
  · rw [List.getD_eq_default _ _ h]

/-! Characterization of the inner minimization loop (`max_possible_incr`):
the fold starts at `none` (the value `+infinity`) and takes the minimum of
`gap[i] / covered_by_sets[i]` over the covering sets. -/

lemma incrStep_of_not_cov (inst : Instance) (sum : ℕ → ℚ) {e i : ℕ}
    (h : ¬ cov inst e i) (acc : Option ℚ) : incrStep inst sum e acc i = acc := by
  unfold incrStep
  rw [if_pos ((coverage_lt_eps_iff inst e i).mpr h)]

lemma incrStep_none_of_cov (inst : Instance) (sum : ℕ → ℚ) {e i : ℕ}
    (h : cov inst e i) :
    incrStep inst sum e none i = some (costVec inst i - sum i) := by
  unfold incrStep
  rw [if_neg (by rw [coverage_lt_eps_iff]; exact not_not_intro h),
    coverage_of_cov inst h, div_one]

lemma incrStep_some_of_cov (inst : Instance) (sum : ℕ → ℚ) {e i : ℕ}
    (h : cov inst e i) (w0 : ℚ) :
    incrStep inst sum e (some w0) i = some (min w0 (costVec inst i - sum i)) := by
  unfold incrStep
  rw [if_neg (by rw [coverage_lt_eps_iff]; exact not_not_intro h),
    coverage_of_cov inst h, div_one]

lemma foldl_incrStep_spec (inst : Instance) (sum : ℕ → ℚ) (e : ℕ) :
    ∀ (l : List ℕ) (acc : Option ℚ),
      (List.foldl (incrStep inst sum e) acc l = none ↔
        acc = none ∧ ∀ i ∈ l, ¬ cov inst e i) ∧
      (∀ v, List.foldl (incrStep inst sum e) acc l = some v →
        ((∀ w, acc = some w → v ≤ w) ∧
         (∀ i ∈ l, cov inst e i → v ≤ costVec inst i - sum i) ∧
         (acc = some v ∨ ∃ i ∈ l, cov inst e i ∧ costVec inst i - sum i = v))) := by
  intro l
  induction l with
  | nil =>
    intro acc
    constructor
    · simp
    · intro v hv
      simp only [List.foldl_nil] at hv
      refine ⟨?_, by simp, Or.inl hv⟩
      intro w hw
      exact le_of_eq (Option.some_inj.mp (hv.symm.trans hw))
  | cons i t ih =>
    intro acc
    by_cases hcov : cov inst e i
    · cases acc with
      | none =>
        constructor
        · rw [List.foldl_cons, incrStep_none_of_cov inst sum hcov, (ih _).1]
          simp [hcov]
        · intro v hv
          rw [List.foldl_cons, incrStep_none_of_cov inst sum hcov] at hv
          obtain ⟨h1, h2, h3⟩ := (ih _).2 v hv
          have hvg : v ≤ costVec inst i - sum i := h1 _ rfl
          refine ⟨by simp, ?_, ?_⟩
          · intro j hj hcj
            rcases List.mem_cons.mp hj with rfl | hj
            · exact hvg
            · exact h2 j hj hcj
          · rcases h3 with h3 | ⟨j, hj, hcj, hvj⟩
            · exact Or.inr ⟨i, List.mem_cons_self i t, hcov, Option.some_inj.mp h3⟩
            · exact Or.inr ⟨j, List.mem_cons_of_mem i hj, hcj, hvj⟩
      | some w0 =>
        constructor
        · rw [List.foldl_cons, incrStep_some_of_cov inst sum hcov w0, (ih _).1]
          simp
        · intro v hv
          rw [List.foldl_cons, incrStep_some_of_cov inst sum hcov w0] at hv
          obtain ⟨h1, h2, h3⟩ := (ih _).2 v hv
          have hvm : v ≤ min w0 (costVec inst i - sum i) := h1 _ rfl
          refine ⟨?_, ?_, ?_⟩
          · intro w hw
            cases Option.some_inj.mp hw
            exact le_trans hvm (min_le_left _ _)
          · intro j hj hcj
            rcases List.mem_cons.mp hj with rfl | hj
            · exact le_trans hvm (min_le_right _ _)
            · exact h2 j hj hcj
          · rcases h3 with h3 | ⟨j, hj, hcj, hvj⟩
            · have hv0 : min w0 (costVec inst i - sum i) = v := Option.some_inj.mp h3
              rcases min_choice w0 (costVec inst i - sum i) with hmin | hmin
              · exact Or.inl (congrArg some (hmin.symm.trans hv0))
              · exact Or.inr ⟨i, List.mem_cons_self i t, hcov, hmin.symm.trans hv0⟩
            · exact Or.inr ⟨j, List.mem_cons_of_mem i hj, hcj, hvj⟩
    · constructor
      · rw [List.foldl_cons, incrStep_of_not_cov inst sum hcov acc, (ih acc).1]
        simp [hcov]
      · intro v hv
        rw [List.foldl_cons, incrStep_of_not_cov inst sum hcov acc] at hv
        obtain ⟨h1, h2, h3⟩ := (ih acc).2 v hv
        refine ⟨h1, ?_, ?_⟩
        · intro j hj hcj
          rcases List.mem_cons.mp hj with rfl | hj
          · exact absurd hcj hcov
          · exact h2 j hj hcj
        · rcases h3 with h3 | ⟨j, hj, hcj, hvj⟩
          · exact Or.inl h3
          · exact Or.inr ⟨j, List.mem_cons_of_mem i hj, hcj, hvj⟩


lemma maxIncr_eq_none_iff (inst : Instance) (sum : ℕ → ℚ) (e : ℕ) :
    maxIncr inst sum e = none ↔ ∀ i < inst.sets.length, ¬ cov inst e i := by
  unfold maxIncr
  rw [(foldl_incrStep_spec inst sum e _ none).1]
  simp [List.mem_range]

lemma maxIncr_some_spec (inst : Instance) (sum : ℕ → ℚ) (e : ℕ) {v : ℚ}
    (hv : maxIncr inst sum e = some v) :
    (∀ i, cov inst e i → v ≤ costVec inst i - sum i) ∧
    (∃ i, cov inst e i ∧ costVec inst i - sum i = v) := by
  obtain ⟨h1, h2, h3⟩ := (foldl_incrStep_spec inst sum e _ none).2 v hv
  constructor
  · intro i hci
    exact h2 i (List.mem_range.mpr (cov_lt_length inst hci)) hci
  · rcases h3 with h3 | ⟨i, hi, hci, hvi⟩
    · exact absurd h3 (by simp)
    · exact ⟨i, hci, hvi⟩

/-! Facts about the dual-growth loop. -/

lemma growDuals_append (inst : Instance) :
    ∀ (l₁ l₂ : List ℕ) (sum : ℕ → ℚ),
      growDuals inst (l₁ ++ l₂) sum =
        (growDuals inst l₁ sum).bind (growDuals inst l₂) := by
  intro l₁
  induction l₁ with
  | nil => intro l₂ sum; rfl
  | cons e t ih =>
    intro l₂ sum
    cases h : maxIncr inst sum e with
    | none => simp [growDuals, h]
    | some incr => simp [growDuals, h, ih l₂]

lemma growDuals_isSome_of_covered (inst : Instance) :
    ∀ (es : List ℕ) (sum : ℕ → ℚ),
      (∀ e ∈ es, ∃ s, cov inst e s) →
      ∃ sum', growDuals inst es sum = some sum' := by
  intro es
  induction es with
  | nil => intro sum _; exact ⟨sum, rfl⟩
  | cons e t ih =>
    intro sum hcov
    obtain ⟨s, hs⟩ := hcov e (List.mem_cons_self e t)
    cases h : maxIncr inst sum e with
    | none =>
      rw [maxIncr_eq_none_iff] at h
      exact absurd hs (h s (cov_lt_length inst hs))
    | some incr =>
      obtain ⟨sum', h'⟩ := ih (fun i => sum i + incr * coverage inst e i)
        fun e' he' => hcov e' (List.mem_cons_of_mem e he')
      refine ⟨sum', ?_⟩
      simp only [growDuals, h]
      exact h'

lemma growDuals_none_of_uncovered (inst : Instance) :
    ∀ (es : List ℕ) (sum : ℕ → ℚ) (e : ℕ), e ∈ es → (∀ s, ¬ cov inst e s) →
      growDuals inst es sum = none := by
  intro es
  induction es with
  | nil => intro sum e he _; exact absurd he (List.not_mem_nil e)
  | cons e0 t ih =>
    intro sum e he hu
    cases h : maxIncr inst sum e0 with
    | none => simp [growDuals, h]
    | some incr =>
      have he0 : e ≠ e0 := by
        rintro rfl
        obtain ⟨-, i, hci, -⟩ := maxIncr_some_spec inst sum e h
        exact hu i hci
      rcases List.mem_cons.mp he with rfl | ht
      · exact absurd rfl he0
      · simp [growDuals, h, ih _ e ht hu]

lemma sum_coverage_eq_freq (inst : Instance) (e : ℕ) :
    (∑ i ∈ Finset.range inst.sets.length, coverage inst e i) = (freqOf inst e : ℚ) := by
  unfold coverage freqOf
  rw [Finset.sum_boole]

/-- The master invariant of the dual-growth loop, given non-negative
slack below the non-negative costs on entry: the slack vector grows
monotonically, stays below the cost vector, every processed element gets
a covering set whose dual constraint is exactly tight at the end, and
the total slack growth is bounded through any family `K` covering the
processed elements (the weak-duality accounting). -/
lemma growDuals_invariant (inst : Instance) :
    ∀ (es : List ℕ) (sum sum' : ℕ → ℚ),
      growDuals inst es sum = some sum' →
      (∀ i, 0 ≤ sum i) →
      (∀ i, sum i ≤ costVec inst i) →
      ((∀ i, sum i ≤ sum' i) ∧
       (∀ i, sum' i ≤ costVec inst i) ∧
       (∀ e ∈ es, ∃ s, cov inst e s ∧ sum' s = costVec inst s) ∧
       (∀ (F : ℕ) (K : Finset ℕ),
          (∀ e ∈ es, freqOf inst e ≤ F) →
          (∀ e ∈ es, ∃ s ∈ K, cov inst e s) →
          (∑ i ∈ Finset.range inst.sets.length, sum' i) -
              (∑ i ∈ Finset.range inst.sets.length, sum i) ≤
            (F : ℚ) * ((∑ s ∈ K, sum' s) - (∑ s ∈ K, sum s)))) := by
  intro es
  induction es with
  | nil =>
    intro sum sum' h h0 hub
    cases Option.some_inj.mp h
    refine ⟨fun i => le_refl _, hub, by simp, ?_⟩
    intro F K _ _
    simp
  | cons e t ih =>
    intro sum sum' h h0 hub
    cases hm : maxIncr inst sum e with
    | none => simp [growDuals, hm] at h
    | some incr =>
      simp only [growDuals, hm] at h
      set sum₁ := fun i => sum i + incr * coverage inst e i with hsum₁
      obtain ⟨hincr_le, s₀, hcs₀, hs₀⟩ := maxIncr_some_spec inst sum e hm
      have hincr0 : 0 ≤ incr := by
        rw [← hs₀]
        exact sub_nonneg.mpr (hub s₀)
      have h0' : ∀ i, 0 ≤ sum₁ i := fun i =>
        add_nonneg (h0 i) (mul_nonneg hincr0 (coverage_nonneg inst e i))
      have hub' : ∀ i, sum₁ i ≤ costVec inst i := by
        intro i
        by_cases hci : cov inst e i
        · have hle := hincr_le i hci
          have : sum₁ i = sum i + incr := by
            show sum i + incr * coverage inst e i = sum i + incr
            rw [coverage_of_cov inst hci, mul_one]
          rw [this]
          linarith
        · have : sum₁ i = sum i := by
            show sum i + incr * coverage inst e i = sum i
            rw [coverage_of_not_cov inst hci, mul_zero, add_zero]
          rw [this]
          exact hub i
      obtain ⟨ihmono, ihub, ihtight, ihdual⟩ := ih sum₁ sum' h h0' hub'
      have hmono1 : ∀ i, sum i ≤ sum₁ i := by
        intro i
        show sum i ≤ sum i + incr * coverage inst e i
        exact le_add_of_nonneg_right (mul_nonneg hincr0 (coverage_nonneg inst e i))
      refine ⟨fun i => le_trans (hmono1 i) (ihmono i), ihub, ?_, ?_⟩
      · intro e' he'
        rcases List.mem_cons.mp he' with heq | ht
        · rw [heq]
          refine ⟨s₀, hcs₀, ?_⟩
          have h1 : sum₁ s₀ = costVec inst s₀ := by
            show sum s₀ + incr * coverage inst e s₀ = costVec inst s₀
            rw [coverage_of_cov inst hcs₀, mul_one, ← hs₀]
            ring
          exact le_antisymm (ihub s₀) (h1 ▸ ihmono s₀)
        · exact ihtight e' ht
      · intro F K hF hK
        have hdual' := ihdual F K (fun e' he' => hF e' (List.mem_cons_of_mem e he'))
          (fun e' he' => hK e' (List.mem_cons_of_mem e he'))
        have hstep_range : (∑ i ∈ Finset.range inst.sets.length, sum₁ i) =
            (∑ i ∈ Finset.range inst.sets.length, sum i) + incr * (freqOf inst e : ℚ) := by
          show (∑ i ∈ Finset.range inst.sets.length, (sum i + incr * coverage inst e i)) = _
          rw [Finset.sum_add_distrib, ← Finset.mul_sum, sum_coverage_eq_freq]
        have hstep_K : (∑ s ∈ K, sum₁ s) =
            (∑ s ∈ K, sum s) + incr * (∑ s ∈ K, coverage inst e s) := by
          show (∑ s ∈ K, (sum s + incr * coverage inst e s)) = _
          rw [Finset.sum_add_distrib, ← Finset.mul_sum]
        obtain ⟨s₁, hs₁K, hcs₁⟩ := hK e (List.mem_cons_self e t)
        have hKcov1 : (1 : ℚ) ≤ ∑ s ∈ K, coverage inst e s := by
          have hle := Finset.single_le_sum
            (f := coverage inst e) (fun i _ => coverage_nonneg inst e i) hs₁K
          rw [coverage_of_cov inst hcs₁] at hle
          exact hle
        have hfF : (freqOf inst e : ℚ) ≤ (F : ℚ) := by
          exact_mod_cast hF e (List.mem_cons_self e t)
        have hF0 : (0 : ℚ) ≤ (F : ℚ) := by positivity
        have key1 : incr * (freqOf inst e : ℚ) ≤ (F : ℚ) * incr := by
          rw [mul_comm (F : ℚ) incr]
          exact mul_le_mul_of_nonneg_left hfF hincr0
        have key2 : (F : ℚ) * incr ≤ (F : ℚ) * (incr * (∑ s ∈ K, coverage inst e s)) :=
          mul_le_mul_of_nonneg_left (le_mul_of_one_le_right hincr0 hKcov1) hF0
        have ring_eq : (F : ℚ) * ((∑ s ∈ K, sum' s) - (∑ s ∈ K, sum₁ s)) +
            (F : ℚ) * (incr * (∑ s ∈ K, coverage inst e s)) =
            (F : ℚ) * ((∑ s ∈ K, sum' s) - (∑ s ∈ K, sum s)) := by
          rw [hstep_K]
          ring
        linarith [hdual', key1, key2, hstep_range, ring_eq]


/-! Bridging lemmas between `verify`, `solve` and the loop. -/

lemma verify_mem_bounds (inst : Instance) (hv : inst.verify = true) {s : ℕ} {x : ℤ}
    (hx : x ∈ inst.sets.getD s []) : 0 ≤ x ∧ x < (inst.nr_elements : ℤ) := by
  have hs : s < inst.sets.length := by
    by_contra hge
    rw [List.getD_eq_default _ _ (le_of_not_lt hge)] at hx
    exact absurd hx (List.not_mem_nil x)
  rw [List.getD_eq_getElem _ _ hs] at hx
  unfold Instance.verify at hv
  simp only [Bool.and_eq_true, List.all_eq_true, decide_eq_true_eq] at hv
  exact hv.2 _ (List.getElem_mem hs) x hx

lemma verify_ne_false (inst : Instance) (hv : inst.verify = true) :
    ¬ (inst.verify = false) := by simp [hv]

lemma solve_eq_cover_of_growDuals (inst : Instance) (hv : inst.verify = true)
    {sum' : ℕ → ℚ}
    (hgd : growDuals inst (List.range inst.nr_elements) initialSlack = some sum') :
    solve inst = SolveResult.cover ((List.range inst.sets.length).filter
      fun s => |costVec inst s - sum' s| < EPSILON) := by
  unfold solve
  rw [if_neg (verify_ne_false inst hv), hgd]

lemma growDuals_of_feasible (inst : Instance) (hf : Feasible inst) :
    ∃ sum', growDuals inst (List.range inst.nr_elements) initialSlack = some sum' := by
  apply growDuals_isSome_of_covered
  intro e he
  obtain ⟨s, -, hcov⟩ := hf e (List.mem_range.mp he)
  exact ⟨s, hcov⟩

/-- C5: on the demo instance of `main()` (5 elements; S0 cost 50 over
`{0,1}`, S1 cost 2 over `{1,2,3}`, S2 cost 3 over `{3,4}`, S3 cost 2
over `{4,0}`), `solve` returns exactly the index sequence `[1, 3]`,
whose total cost is 4. -/
theorem solve_demo_instance :
    solve inst5 = SolveResult.cover [1, 3] ∧ totalCost inst5 [1, 3] = 4 := by
  decide

/-- C1 (amended with non-negative costs): for every validated instance
with non-negative costs in which every element of the universe is in at
least one set, `solve` returns a list of set indices, and the union of
the listed sets is exactly the universe of elements. -/
theorem solve_covers_universe (inst : Instance) (hv : inst.verify = true)
    (hc : ∀ x ∈ inst.costs, 0 ≤ x) (hf : Feasible inst) :
    ∃ l, solve inst = SolveResult.cover l ∧
      ∀ x : ℤ, (∃ s ∈ l, x ∈ inst.sets.getD s []) ↔
        (0 ≤ x ∧ x < (inst.nr_elements : ℤ)) := by
  obtain ⟨sum', hgd⟩ := growDuals_of_feasible inst hf
  refine ⟨_, solve_eq_cover_of_growDuals inst hv hgd, ?_⟩
  obtain ⟨-, hub, htight, -⟩ := growDuals_invariant inst _ initialSlack sum' hgd
    (fun i => le_refl 0) (fun i => costVec_nonneg inst hc i)
  intro x
  constructor
  · rintro ⟨s, hsl, hx⟩
    exact verify_mem_bounds inst hv hx
  · rintro ⟨hx0, hxn⟩
    have hen : x.toNat < inst.nr_elements := by omega
    obtain ⟨s, hcovs, hts⟩ := htight x.toNat (List.mem_range.mpr hen)
    refine ⟨s, ?_, ?_⟩
    · apply List.mem_filter.mpr
      refine ⟨List.mem_range.mpr (cov_lt_length inst hcovs), ?_⟩
      rw [decide_eq_true_eq, hts, sub_self, abs_zero]
      exact EPSILON_pos
    · have : ((x.toNat : ℤ)) = x := Int.toNat_of_nonneg hx0
      rw [← this]
      exact hcovs

/-- The C1 counterexample instance: two elements, set 0 covers both at
cost 1, set 1 covers only element 1 at cost -1.  It validates and is
feasible, but the negative cost makes the dual step for element 1
negative, untightening set 0; only set 1 is returned and element 0 is
left uncovered. -/
def instNeg : Instance := ⟨2, [[0, 1], [1]], [1, -1]⟩

/-- C1 as stated is false: `instNeg` passes validation and every element
is in some set, yet `solve` returns `[1]`, whose union omits element 0. -/
theorem solve_covers_universe_counterexample :
    instNeg.verify = true ∧ Feasible instNeg ∧
      solve instNeg = SolveResult.cover [1] ∧
      ¬ ∃ s ∈ [1], (0 : ℤ) ∈ instNeg.sets.getD s [] := by
  decide

/-- Witness instantiating the amended C1 theorem on the demo instance. -/
theorem solve_covers_universe_witness :
    ∃ l, solve inst5 = SolveResult.cover l ∧
      ∀ x : ℤ, (∃ s ∈ l, x ∈ inst5.sets.getD s []) ↔
        (0 ≤ x ∧ x < (inst5.nr_elements : ℤ)) :=
  solve_covers_universe inst5 (by decide) (by decide) (by decide)

/-- C3 (amended): on a validated instance with an element no set
contains, `solve` takes the infeasible path (which prints a fixed
diagnostic carrying no element index) and hands the caller the empty
vector; no selected indices are produced. -/
theorem solve_infeasible_empty (inst : Instance) (hv : inst.verify = true)
    (e : ℕ) (he : e < inst.nr_elements)
    (hu : ∀ s < inst.sets.length, ¬ cov inst e s) :
    solve inst = SolveResult.infeasible ∧
      returnedValue (solve inst) = some [] := by
  have hu' : ∀ s, ¬ cov inst e s := fun s hcov =>
    hu s (cov_lt_length inst hcov) hcov
  have hgd : growDuals inst (List.range inst.nr_elements) initialSlack = none :=
    growDuals_none_of_uncovered inst _ initialSlack e (List.mem_range.mpr he) hu'
  have h1 : solve inst = SolveResult.infeasible := by
    unfold solve
    rw [if_neg (verify_ne_false inst hv), hgd]
  exact ⟨h1, by rw [h1]; rfl⟩

/-- First C3 counterexample instance: element 0 is uncovered. -/
def instInfA : Instance := ⟨2, [[1]], [1]⟩

/-- Second C3 counterexample instance: element 1 is uncovered. -/
def instInfB : Instance := ⟨2, [[0]], [1]⟩

/-- C3 as stated is false in its error payload: the two instances abort
on different offending elements (0 for the first, 1 for the second), yet
`solve` returns literally identical results, so the infeasibility result
cannot carry the offending element's index. -/
theorem solve_infeasible_counterexample :
    solve instInfA = SolveResult.infeasible ∧
    solve instInfB = SolveResult.infeasible ∧
    solve instInfA = solve instInfB ∧
    ((0 : ℤ) ∉ instInfA.sets.getD 0 []) ∧ ((0 : ℤ) ∈ instInfB.sets.getD 0 []) ∧
    ((1 : ℤ) ∈ instInfA.sets.getD 0 []) ∧ ((1 : ℤ) ∉ instInfB.sets.getD 0 []) := by
  decide

/-- Witness instantiating the amended C3 theorem. -/
theorem solve_infeasible_empty_witness :
    solve instInfA = SolveResult.infeasible ∧
      returnedValue (solve instInfA) = some [] :=
  solve_infeasible_empty instInfA (by decide) 0 (by decide) (by decide)


/-- C6: on every feasible validated instance the dual-growth loop
completes with a final slack vector, `solve` selects exactly the set
indices whose dual constraint is epsilon-tight
(`|c[s] - slackUsed[s]| < EPSILON`), and the returned list is strictly
ascending in the set index. -/
theorem solve_selects_tight (inst : Instance) (hv : inst.verify = true)
    (hf : Feasible inst) :
    ∃ sum', growDuals inst (List.range inst.nr_elements) initialSlack = some sum' ∧
      solve inst = SolveResult.cover ((List.range inst.sets.length).filter
        fun s => |costVec inst s - sum' s| < EPSILON) ∧
      List.Sorted (· < ·) ((List.range inst.sets.length).filter
        fun s => |costVec inst s - sum' s| < EPSILON) := by
  obtain ⟨sum', hgd⟩ := growDuals_of_feasible inst hf
  exact ⟨sum', hgd, solve_eq_cover_of_growDuals inst hv hgd,
    List.Pairwise.filter _ (List.pairwise_lt_range _)⟩

/-- Witness instantiating the C6 theorem on the demo instance. -/
theorem solve_selects_tight_witness :
    ∃ sum', growDuals inst5 (List.range inst5.nr_elements) initialSlack = some sum' ∧
      solve inst5 = SolveResult.cover ((List.range inst5.sets.length).filter
        fun s => |costVec inst5 s - sum' s| < EPSILON) ∧
      List.Sorted (· < ·) ((List.range inst5.sets.length).filter
        fun s => |costVec inst5 s - sum' s| < EPSILON) :=
  solve_selects_tight inst5 (by decide) (by decide)

/-- C7: `verify` fails exactly when the cost and set sequences have
different lengths or some element index of some set lies outside
`[0, nr_elements)`; the cost values themselves are irrelevant to
verification (so a negative cost alone never fails it); and `solve`
aborts with the assertion failure, doing nothing else, exactly when
`verify` fails. -/
theorem verify_spec (inst : Instance) :
    (inst.verify = false ↔
      (inst.costs.length ≠ inst.sets.length ∨
        ∃ s ∈ inst.sets, ∃ x ∈ s, x < 0 ∨ (inst.nr_elements : ℤ) ≤ x)) ∧
    (∀ costs2 : List ℚ, costs2.length = inst.costs.length →
      Instance.verify ⟨inst.nr_elements, inst.sets, costs2⟩ = inst.verify) ∧
    (solve inst = SolveResult.assertFail ↔ inst.verify = false) := by
  refine ⟨?_, ?_, ?_⟩
  · rw [Bool.eq_false_iff, ne_eq]
    unfold Instance.verify
    simp only [Bool.and_eq_true, beq_iff_eq, List.all_eq_true, decide_eq_true_eq,
      not_and_or, not_forall, not_le, not_lt]
    simp [exists_prop]
  · intro costs2 hlen
    unfold Instance.verify
    simp only [hlen]
  · constructor
    · intro hs
      by_contra hne
      have hv : inst.verify = true := by
        cases hbv : inst.verify
        · exact absurd hbv hne
        · rfl
      unfold solve at hs
      rw [if_neg (verify_ne_false inst hv)] at hs
      cases hgd : growDuals inst (List.range inst.nr_elements) initialSlack with
      | none => rw [hgd] at hs; exact SolveResult.noConfusion hs
      | some sum => rw [hgd] at hs; exact SolveResult.noConfusion hs
    · intro hv
      unfold solve
      rw [if_pos hv]

/-- Witness for C7: the instance with a length mismatch fails
verification; checked through the theorem at a concrete instance. -/
theorem verify_spec_witness :
    Instance.verify ⟨2, [[1]], [5]⟩ = Instance.verify instInfA :=
  (verify_spec instInfA).2.1 [5] rfl

/-- C8: on a validated instance with non-negative costs, every component
of the slack vector is non-decreasing from the state after `k` processed
elements to the state after `k + 1` processed elements. -/
theorem slack_monotone (inst : Instance) (hv : inst.verify = true)
    (hc : ∀ x ∈ inst.costs, 0 ≤ x) (k i : ℕ) (a b : ℕ → ℚ)
    (ha : growDuals inst (List.range k) initialSlack = some a)
    (hb : growDuals inst (List.range (k + 1)) initialSlack = some b) :
    a i ≤ b i := by
  have hsplit : growDuals inst (List.range (k + 1)) initialSlack =
      (growDuals inst (List.range k) initialSlack).bind (growDuals inst [k]) := by
    rw [← growDuals_append inst _ _ initialSlack, ← List.range_succ]
  rw [hsplit, ha, Option.some_bind] at hb
  obtain ⟨-, hub, -, -⟩ := growDuals_invariant inst (List.range k) initialSlack a ha
    (fun j => le_refl 0) (fun j => costVec_nonneg inst hc j)
  cases hm : maxIncr inst a k with
  | none => simp [growDuals, hm] at hb
  | some incr =>
    simp only [growDuals, hm] at hb
    have hb' : b = fun j => a j + incr * coverage inst k j :=
      (Option.some_inj.mp hb).symm
    obtain ⟨-, s₀, hcs₀, hs₀⟩ := maxIncr_some_spec inst a k hm
    have hincr0 : 0 ≤ incr := by
      rw [← hs₀]
      exact sub_nonneg.mpr (hub s₀)
    rw [hb']
    exact le_add_of_nonneg_right (mul_nonneg hincr0 (coverage_nonneg inst k i))

/-- Witness instantiating the C8 theorem on the demo instance for the
first processed element. -/
theorem slack_monotone_witness :
    ∃ a b, growDuals inst5 (List.range 0) initialSlack = some a ∧
      growDuals inst5 (List.range 1) initialSlack = some b ∧ a 0 ≤ b 0 :=
  ⟨_, _, rfl, rfl, slack_monotone inst5 (by decide) (by decide) 0 0 _ _ rfl rfl⟩


/-! Congruence of `solve` in the instance data it actually reads. -/

lemma solve_congr (inst inst' : Instance)
    (hn : inst'.nr_elements = inst.nr_elements)
    (hc : inst'.costs = inst.costs)
    (hm : inst'.sets.length = inst.sets.length)
    (hcov : ∀ e s, cov inst' e s ↔ cov inst e s)
    (hv : inst'.verify = inst.verify) :
    solve inst' = solve inst := by
  have hcovf : coverage inst' = coverage inst := by
    funext e s
    unfold coverage
    rw [if_congr (hcov e s) rfl rfl]
  have hcostf : costVec inst' = costVec inst := by
    funext i
    unfold costVec
    rw [hc]
  have hstep : incrStep inst' = incrStep inst := by
    funext sum e acc i
    unfold incrStep
    rw [hcovf, hcostf]
  have hmax : maxIncr inst' = maxIncr inst := by
    funext sum e
    unfold maxIncr
    rw [hm, hstep]
  have hgrow : ∀ es sum, growDuals inst' es sum = growDuals inst es sum := by
    intro es
    induction es with
    | nil => intro sum; rfl
    | cons e t ih =>
      intro sum
      simp only [growDuals, hmax, hcovf]
      cases maxIncr inst sum e with
      | none => rfl
      | some incr => exact ih _
  unfold solve
  rw [hv, hn, hgrow, hm, hcostf]

/-- C9: removing duplicate element indices inside every set leaves the
result of `solve` unchanged (each coverage entry records membership, not
multiplicity, and verification checks a universally quantified bound). -/
theorem solve_dedup (inst : Instance) :
    solve ⟨inst.nr_elements, inst.sets.map fun s => s.dedup, inst.costs⟩ =
      solve inst := by
  have hm : (inst.sets.map fun s => s.dedup).length = inst.sets.length :=
    List.length_map _ _
  have hcov : ∀ e s, cov ⟨inst.nr_elements, inst.sets.map fun s => s.dedup, inst.costs⟩ e s ↔
      cov inst e s := by
    intro e s
    unfold cov
    rcases lt_or_ge s inst.sets.length with h | h
    · rw [List.getD_eq_getElem _ _ (by simpa using h), List.getElem_map,
        List.getD_eq_getElem _ _ h]
      exact List.mem_dedup
    · rw [List.getD_eq_default _ _ (by simpa using h), List.getD_eq_default _ _ h]
  apply solve_congr
  · rfl
  · rfl
  · exact hm
  · exact hcov
  · unfold Instance.verify
    rw [Bool.eq_iff_iff]
    simp only [Bool.and_eq_true, beq_iff_eq, List.all_eq_true, decide_eq_true_eq,
      List.length_map, List.mem_map]
    constructor
    · rintro ⟨h1, h2⟩
      refine ⟨h1, ?_⟩
      intro s hs x hx
      exact h2 s.dedup ⟨s, hs, rfl⟩ x (List.mem_dedup.mpr hx)
    · rintro ⟨h1, h2⟩
      refine ⟨h1, ?_⟩
      rintro s2 ⟨s, hs, rfl⟩ x hx
      exact h2 s hs x (List.mem_dedup.mp hx)

/-- Witness instantiating C9 on an instance with duplicated elements. -/
theorem solve_dedup_witness :
    solve ⟨2, (⟨2, [[0, 0, 1], [1, 1]], [3, 4]⟩ : Instance).sets.map (fun s => s.dedup),
      [3, 4]⟩ = solve ⟨2, [[0, 0, 1], [1, 1]], [3, 4]⟩ :=
  solve_dedup ⟨2, [[0, 0, 1], [1, 1]], [3, 4]⟩

/-- Folding `add_set` over a list of (cost, elements) pairs, as a caller
of the public interface builds an instance. -/
def buildInstance (n : ℕ) (pairs : List (ℚ × List ℤ)) : Instance :=
  pairs.foldl (fun i p => i.add_set p.1 p.2) (Instance.construct n)

lemma buildInstance_fields (n : ℕ) :
    ∀ (pairs : List (ℚ × List ℤ)) (acc : Instance),
      (pairs.foldl (fun i p => i.add_set p.1 p.2) acc).nr_elements = acc.nr_elements ∧
      (pairs.foldl (fun i p => i.add_set p.1 p.2) acc).sets =
        acc.sets ++ pairs.map Prod.snd ∧
      (pairs.foldl (fun i p => i.add_set p.1 p.2) acc).costs =
        acc.costs ++ pairs.map Prod.fst := by
  intro pairs
  induction pairs with
  | nil => intro acc; simp
  | cons p t ih =>
    intro acc
    obtain ⟨h1, h2, h3⟩ := ih (acc.add_set p.1 p.2)
    refine ⟨by rw [List.foldl_cons, h1]; rfl, ?_, ?_⟩
    · rw [List.foldl_cons, h2]
      simp [Instance.add_set]
    · rw [List.foldl_cons, h3]
      simp [Instance.add_set]

/-- C10: the constructor accepts the element count 0, `add_set` appends
normally (the built sets and costs are exactly the pairs passed, in call
order), and such an instance passes verification exactly when every
added set is empty (any element index would fall outside `[0, 0)`). -/
theorem construct_zero_spec (pairs : List (ℚ × List ℤ)) :
    (buildInstance 0 pairs).nr_elements = 0 ∧
    (buildInstance 0 pairs).sets = pairs.map Prod.snd ∧
    (buildInstance 0 pairs).costs = pairs.map Prod.fst ∧
    ((buildInstance 0 pairs).verify = true ↔ ∀ p ∈ pairs, p.2 = []) := by
  obtain ⟨h1, h2, h3⟩ := buildInstance_fields 0 pairs (Instance.construct 0)
  have h2' : (buildInstance 0 pairs).sets = pairs.map Prod.snd := by
    rw [buildInstance, h2]; rfl
  have h3' : (buildInstance 0 pairs).costs = pairs.map Prod.fst := by
    rw [buildInstance, h3]; rfl
  have h1' : (buildInstance 0 pairs).nr_elements = 0 := by
    rw [buildInstance, h1]; rfl
  refine ⟨h1', h2', h3', ?_⟩
  unfold Instance.verify
  rw [h1', h2', h3']
  simp only [Bool.and_eq_true, beq_iff_eq, List.all_eq_true, decide_eq_true_eq,
    List.length_map, List.mem_map, Nat.cast_zero]
  constructor
  · rintro ⟨-, h⟩ p hp
    rw [List.eq_nil_iff_forall_not_mem]
    intro x hx
    have hb := h p.2 ⟨p, hp, rfl⟩ x hx
    omega
  · intro h
    refine ⟨trivial, ?_⟩
    rintro s ⟨p, hp, rfl⟩ x hx
    rw [h p hp] at hx
    exact absurd hx (List.not_mem_nil x)

/-- Witness instantiating C10 on a one-pair list. -/
theorem construct_zero_spec_witness :
    (buildInstance 0 [(3, [])]).verify = true :=
  (construct_zero_spec [(3, [])]).2.2.2.mpr (by decide)

/-- C2 under the intended initialization (the model zero-initializes the
Eigen matrix and slack vector, which is what the source's comments and
the spec describe; the actual Eigen constructors in the source leave the
memory indeterminate): each coverage entry is 1 exactly when the set
contains the element and 0 otherwise, and the slack vector `solve`
starts its loop from is identically zero. -/
theorem coverage_and_slack_init (inst : Instance) (e s : ℕ) :
    ((e : ℤ) ∈ inst.sets.getD s [] → coverage inst e s = 1) ∧
    (¬ (e : ℤ) ∈ inst.sets.getD s [] → coverage inst e s = 0) ∧
    initialSlack s = 0 :=
  ⟨fun h => coverage_of_cov inst h, fun h => coverage_of_not_cov inst h, rfl⟩


lemma list_sum_map_add_const (l : List ℕ) (f : ℕ → ℚ) (c : ℚ) :
    (l.map fun s => f s + c).sum = (l.map f).sum + l.length * c := by
  induction l with
  | nil => simp
  | cons a t ih =>
    simp only [List.map_cons, List.sum_cons, ih, List.length_cons]
    push_cast
    ring

/-- C4 (amended with the epsilon slack the tolerance admits): on every
feasible validated instance with non-negative costs, the total cost of
the returned cover is at most `f` times the cost of any cover `K`, plus
`setCount * EPSILON` of tolerance slack, where `f` is the maximum
element frequency. -/
theorem solve_approx_bound (inst : Instance) (hv : inst.verify = true)
    (hc : ∀ x ∈ inst.costs, 0 ≤ x) (hf : Feasible inst)
    (K : Finset ℕ) (hK : IsCover inst K) :
    ∃ l, solve inst = SolveResult.cover l ∧
      totalCost inst l ≤ (maxFreq inst : ℚ) * coverCost inst K +
        (inst.sets.length : ℚ) * EPSILON := by
  obtain ⟨sum', hgd⟩ := growDuals_of_feasible inst hf
  obtain ⟨hmono, hub, -, hdual⟩ := growDuals_invariant inst _ initialSlack sum' hgd
    (fun i => le_refl 0) (fun i => costVec_nonneg inst hc i)
  have hsum0 : ∀ i, 0 ≤ sum' i := fun i => hmono i
  obtain ⟨l, hleq⟩ : ∃ l, (List.range inst.sets.length).filter
      (fun s => |costVec inst s - sum' s| < EPSILON) = l := ⟨_, rfl⟩
  refine ⟨l, by rw [solve_eq_cover_of_growDuals inst hv hgd, hleq], ?_⟩
  have hmeml : ∀ s ∈ l, s < inst.sets.length ∧ |costVec inst s - sum' s| < EPSILON := by
    intro s hs
    rw [← hleq] at hs
    have hm := List.mem_filter.mp hs
    exact ⟨List.mem_range.mp hm.1, of_decide_eq_true hm.2⟩
  have hnodup : l.Nodup := by
    rw [← hleq]
    exact (List.nodup_range _).filter _
  have hlen : l.length ≤ inst.sets.length := by
    rw [← hleq]
    calc ((List.range inst.sets.length).filter
          (fun s => decide (|costVec inst s - sum' s| < EPSILON))).length
        ≤ (List.range inst.sets.length).length := List.length_filter_le _ _
      _ = inst.sets.length := List.length_range _
  have hA : totalCost inst l ≤ (l.map fun s => sum' s + EPSILON).sum := by
    unfold totalCost
    apply List.sum_le_sum
    intro s hs
    have h2 := (abs_lt.mp (hmeml s hs).2).2
    linarith
  have hB : (l.map fun s => sum' s + EPSILON).sum =
      (l.map sum').sum + l.length * EPSILON := list_sum_map_add_const l sum' EPSILON
  have hC : (l.map sum').sum = ∑ s ∈ l.toFinset, sum' s :=
    (List.sum_toFinset sum' hnodup).symm
  have hsub : l.toFinset ⊆ Finset.range inst.sets.length := by
    intro s hs
    rw [List.mem_toFinset] at hs
    exact Finset.mem_range.mpr (hmeml s hs).1
  have hD : (∑ s ∈ l.toFinset, sum' s) ≤ ∑ i ∈ Finset.range inst.sets.length, sum' i :=
    Finset.sum_le_sum_of_subset_of_nonneg hsub fun i _ _ => hsum0 i
  have hE := hdual (maxFreq inst) K
    (fun e he => Finset.le_sup (Finset.mem_range.mpr (List.mem_range.mp he)))
    (fun e he => hK e (List.mem_range.mp he))
  simp only [initialSlack, Finset.sum_const_zero, sub_zero] at hE
  have hFK : (∑ s ∈ K, sum' s) ≤ coverCost inst K := Finset.sum_le_sum fun i _ => hub i
  have hF0 : (0 : ℚ) ≤ (maxFreq inst : ℚ) := Nat.cast_nonneg _
  have hmul : (maxFreq inst : ℚ) * (∑ s ∈ K, sum' s) ≤
      (maxFreq inst : ℚ) * coverCost inst K := mul_le_mul_of_nonneg_left hFK hF0
  have hlenq : (l.length : ℚ) * EPSILON ≤ (inst.sets.length : ℚ) * EPSILON :=
    mul_le_mul_of_nonneg_right (by exact_mod_cast hlen) (le_of_lt EPSILON_pos)
  linarith [hA, hB, hC, hD, hE, hmul, hlenq]

/-- The C4 counterexample instance: one element covered by two sets, the
second costing `1/20000` (half the tolerance) more than the first. -/
def instEps : Instance := ⟨1, [[0], [0]], [1, 1 + 1 / 20000]⟩

/-- C4 as stated is false: `instEps` is feasible, validated, with
non-negative costs; the singleton family `{0}` is a cover of cost 1 and
the maximum frequency is 2, but `solve` also selects the nearly-tight
set 1, and the returned cost `2 + 1/20000` exceeds
`f * cost({0}) = 2`, hence exceeds `f` times the optimum. -/
theorem solve_approx_counterexample :
    instEps.verify = true ∧ (∀ x ∈ instEps.costs, 0 ≤ x) ∧ Feasible instEps ∧
    IsCover instEps {0} ∧ solve instEps = SolveResult.cover [0, 1] ∧
    ¬ (totalCost instEps [0, 1] ≤ (maxFreq instEps : ℚ) * coverCost instEps {0}) := by
  decide

/-- Witness instantiating the amended C4 theorem on the demo instance
with the cover consisting of sets 1 and 3. -/
theorem solve_approx_bound_witness :
    ∃ l, solve inst5 = SolveResult.cover l ∧
      totalCost inst5 l ≤ (maxFreq inst5 : ℚ) * coverCost inst5 {1, 3} +
        (inst5.sets.length : ℚ) * EPSILON :=
  solve_approx_bound inst5 (by decide) (by decide) (by decide) {1, 3} (by decide)

end SetCover
